import Mathlib

/-!
Verification of the NamedStruct/StarStruct element codecs.

The definitions below are a shallow embedding of the element classes of the
repository: the primitive `struct` packing layer, the enum element
(src/starstruct/elementenum.py), the variable element
(src/namedstruct/elementvariable.py) and the fixed point element
(src/namedstruct/elementfixedpoint.py).  Bytes are modelled as `List Nat`
(each entry a byte value), Python `Decimal` values as `ℚ`, Python `int` as
`ℤ`/`ℕ`, and exceptions as `Except String`.  The process wide decimal
context precision is threaded explicitly as a `Nat` state value.
-/

/-! ## Primitive struct layer

Models the subset of the Python `struct` module used by the elements:
standard size integer codes with an explicit byte order prefix.  The value
for the native prefix is modelled for a little endian host; only round trip
facts depend on the byte order and they hold for either order.
-/

/-- Little endian base 256 encoding of `v` into exactly `k` bytes
(the low `8 * k` bits of `v`). -/
def natToBytesLE : Nat → Nat → List Nat
  | 0, _ => []
  | k + 1, v => v % 256 :: natToBytesLE k (v / 256)

/-- Little endian base 256 decoding, inverse of `natToBytesLE`. -/
def bytesToNatLE : List Nat → Nat
  | [] => 0
  | b :: rest => b + 256 * bytesToNatLE rest

/-- Byte count and signedness of the integer format characters recognised by
the Python `struct` module (standard sizes). -/
def codeInfo (c : Char) : Option (Nat × Bool) :=
  if c = 'b' then some (1, true)
  else if c = 'B' then some (1, false)
  else if c = 'h' then some (2, true)
  else if c = 'H' then some (2, false)
  else if c = 'i' then some (4, true)
  else if c = 'I' then some (4, false)
  else if c = 'l' then some (4, true)
  else if c = 'L' then some (4, false)
  else if c = 'q' then some (8, true)
  else if c = 'Q' then some (8, false)
  else none

/-- Parse a two character format string `mode ++ code` into
`(bigEndian, byteSize, signed)`.  The prefixes `<` and `=` (native order on a
little endian host) decode little endian, `>` and `!` big endian. -/
def parseFormat (fmt : List Char) : Option (Bool × Nat × Bool) :=
  match fmt with
  | [m, c] =>
    match codeInfo c with
    | some (sz, sg) =>
      if m = '<' ∨ m = '=' then some (false, sz, sg)
      else if m = '>' ∨ m = '!' then some (true, sz, sg)
      else none
    | none => none
  | _ => none

/-- Model of `struct.calcsize` for the formats of `parseFormat`. -/
def struct_calcsize (fmt : List Char) : Nat :=
  match parseFormat fmt with
  | some (_, sz, _) => sz
  | none => 0

/-- Lowest value accepted by a struct integer code of `sz` bytes. -/
def struct_lo (sz : Nat) (sg : Bool) : Int :=
  if sg then -(2 ^ (8 * sz - 1)) else 0

/-- Highest value accepted by a struct integer code of `sz` bytes. -/
def struct_hi (sz : Nat) (sg : Bool) : Int :=
  if sg then 2 ^ (8 * sz - 1) - 1 else 2 ^ (8 * sz) - 1

/-- The encoded bytes of an in range value: base 256 digits of the two's
complement representative, reversed for big endian modes. -/
def struct_bytes (big : Bool) (sz : Nat) (v : Int) : List Nat :=
  if big then (natToBytesLE sz (v % (2 ^ (8 * sz) : Int)).toNat).reverse
  else natToBytesLE sz (v % (2 ^ (8 * sz) : Int)).toNat

/-- Model of `struct.Struct(fmt).pack(v)` for one integer: range check the value
against the signed or unsigned range of the code, then emit the base 256
encoding of its two's complement representative in the byte order of the
mode prefix. -/
def struct_pack_int (fmt : List Char) (v : Int) : Except String (List Nat) :=
  match parseFormat fmt with
  | none => .error "bad char in struct format"
  | some (big, sz, sg) =>
    if v < struct_lo sz sg ∨ struct_hi sz sg < v then .error "argument out of range"
    else .ok (struct_bytes big sz v)

/-- The leading `sz` buffer bytes read back as an unsigned integer,
honouring the byte order. -/
def struct_word (big : Bool) (sz : Nat) (buf : List Nat) : Nat :=
  bytesToNatLE (if big then (buf.take sz).reverse else buf.take sz)

/-- Sign reinterpretation of the decoded word: the high half of the
unsigned range is shifted down for signed codes. -/
def struct_signed (sg : Bool) (sz n : Nat) : Int :=
  if sg ∧ (2 ^ (8 * sz - 1) : Nat) ≤ n then (n : Int) - 2 ^ (8 * sz) else (n : Int)

/-- Model of `struct.Struct(fmt).unpack_from(buf, 0)[0]` for one integer: error on a
short buffer, decode the leading `sz` bytes in the order of the mode prefix,
and reinterpret the high half of the unsigned range as negative for signed
codes. -/
def struct_unpack_int (fmt : List Char) (buf : List Nat) : Except String Int :=
  match parseFormat fmt with
  | none => .error "bad char in struct format"
  | some (big, sz, sg) =>
    if buf.length < sz then .error "unpack_from requires a buffer of at least sz bytes"
    else .ok (struct_signed sg sz (struct_word big sz buf))

/-- Boolean test for the error case of an `Except` value. -/
def isErr : Except String α → Bool
  | .error _ => true
  | .ok _ => false

/-- The byte count of a layout rounded up to the nearest multiple of the
alignment: this is the quantity the specification asserts for the padded
size of a packed scalar or enum field (stated from the words of the spec,
for comparison with the source computation). -/
def alignUp (s a : Nat) : Nat := a * ((s + a - 1) / a)

/-! ## Enum element (src/starstruct/elementenum.py) -/

/-- One member of a Python enumeration: a name bound to an underlying
integer value. -/
structure PyEnumMember where
  ename : String
  value : Int
deriving DecidableEq

/-- A Python enumeration: its members in definition order.  Python enforces
that member names are unique; values may repeat (aliases). -/
structure PyEnum where
  members : List PyEnumMember
deriving DecidableEq

/-- The three shapes of value accepted by `ElementEnum.pack`: an instance of
the referenced enum, a member name, or a raw underlying value. -/
inductive EnumInput where
  | member : PyEnumMember → EnumInput
  | str : String → EnumInput
  | raw : Int → EnumInput

/-- The normalisation performed at the top of `ElementEnum.pack` (and
repeated in `make`): an instance is used as is, a string is looked up as a
member name via `getattr`, anything else goes through the enum value
constructor.  The `member` constructor of `EnumInput` stands for an instance
of the referenced enum class (the `isinstance` branch). -/
def ElementEnum.normalize (ref : PyEnum) (item : EnumInput) : Except String Int :=
  match item with
  | .member m => .ok m.value
  | .str s =>
    match ref.members.find? (fun mm => mm.ename == s) with
    | some mm => .ok mm.value
    | none => .error "is not a valid member of the enum"
  | .raw v =>
    match ref.members.find? (fun mm => mm.value == v) with
    | some mm => .ok mm.value
    | none => .error "is not a valid value of the enum"

/-- Model of `ElementEnum.pack`: normalise the input to a member, pack the member's
underlying integer through the primitive layout, then append
`len(data) % alignment` zero bytes when that quantity is nonzero (this is
the source's padding expression, kept verbatim). -/
def ElementEnum.pack (fmt : List Char) (alignment : Nat) (ref : PyEnum)
    (item : EnumInput) : Except String (List Nat) := do
  let v ← ElementEnum.normalize ref item
  let data ← struct_pack_int fmt v
  let missing_bytes := data.length % alignment
  pure (if missing_bytes ≠ 0 then data ++ List.replicate missing_bytes 0 else data)

/-! ## Variable element (src/namedstruct/elementvariable.py)

The nested `Message` collaborator is abstracted as functions: `unitPack`
(its `pack`), `unitUnpack` (its `unpack_partial`, which consumes a prefix of
the buffer and returns the decoded record and the remainder).  A record
produced by a nested message is a named tuple; its Python `len` is its
number of fields, which is why the byte linked unpack model measures records
with `List.length` over the field list.
-/

/-- A Python dict, as the value record fed to a nested message. -/
abbrev Dict := List (String × Int)

/-- The body of the byte length linked pack loop.  Mirrors the source: the
running `length` starts at 0 and is never incremented inside the loop, so
every unit whose own size fits the budget is appended. -/
def packVarBytesGo (unitPack : α → List Nat) (budget length : Nat) :
    List α → List (List Nat)
  | [] => []
  | elem :: rest =>
    let temp_elem := unitPack elem
    if length + temp_elem.length ≤ budget then
      temp_elem :: packVarBytesGo unitPack budget length rest
    else
      packVarBytesGo unitPack budget length rest

/-- Model of `ElementVariable.pack` in the byte length linked configuration
(`variable_repeat` and not `object_length`): `budget` is `msg[self.ref]`. -/
def ElementVariable.packVarBytes (unitPack : α → List Nat) (budget : Nat)
    (values : List α) : List Nat :=
  (packVarBytesGo unitPack budget 0 values).flatten

/-- The byte length linked unpack loop.  `alen` is Python `len` of one
decoded record (its field count).  `fuel` bounds the iteration count so the
model is total; `none` means the loop would still be running. -/
def unpackVarBytesGo (unitUnpack : List Nat → α × List Nat) (alen : α → Nat)
    (budget : Nat) : Nat → Nat → List Nat → Option (List α × List Nat)
  | 0, _, _ => none
  | fuel + 1, length, buf =>
    if length < budget then
      let (val, unused) := unitUnpack buf
      match unpackVarBytesGo unitUnpack alen budget fuel (length + alen val) unused with
      | some (ret, rest) => some (val :: ret, rest)
      | none => none
    else
      some ([], buf)

/-- Model of `ElementVariable.unpack` in the byte length linked configuration:
repeatedly unpack nested units, adding `len(val)` of each decoded record to
the running total, while the total is below the referenced budget field. -/
def ElementVariable.unpackVarBytes (fuel : Nat) (unitUnpack : List Nat → α × List Nat)
    (alen : α → Nat) (budget : Nat) (buf : List Nat) : Option (List α × List Nat) :=
  unpackVarBytesGo unitUnpack alen budget fuel 0 buf

/-- Model of `ElementVariable.pack` in the object count linked configuration
(`variable_repeat` and `object_length`): one nested encoding per entry of
`msg[self.name]`, a falsy entry packing the empty dict.  `msgRef` is the
value of the referenced count field in the input record; the source never
reads it on this path. -/
def ElementVariable.packVarObjects (unitPack : Dict → List Nat)
    (msgName : List (Option Dict)) (msgRef : Nat) : List Nat :=
  (msgName.map (fun elem =>
    match elem with
    | some d => unitPack d
    | none => unitPack [])).flatten

/-- Model of `ElementVariable.unpack` in the object count linked configuration:
invoke the nested message's `unpack_partial` exactly `count` times, where
`count` is the already unpacked value of the referenced field. -/
def ElementVariable.unpackVarObjects (unitUnpack : List Nat → α × List Nat) :
    Nat → List Nat → List α × List Nat
  | 0, buf => ([], buf)
  | count + 1, buf =>
    let (val, unused) := unitUnpack buf
    let (ret, rest) := ElementVariable.unpackVarObjects unitUnpack count unused
    (val :: ret, rest)

/-- Model of `ElementVariable.pack` in the fixed repeat configuration (`ref` a
literal integer `refN`): iterate `refN` slots, packing the value at each
index that exists and emitting `struct.pack('x') * len(self.format)` (that
many zero bytes) for each missing slot.

Modelled from the spec: `len` of a nested `Message` (message.py is not in
src/) is taken as the byte size of one encoded unit of the nested format,
which is what the fixed repeat padding sentence of the spec requires; it is
passed here as `formatLen`. -/
def ElementVariable.packFixedRepeat (unitPack : α → List Nat) (formatLen refN : Nat)
    (values : List α) : List Nat :=
  ((List.range refN).map (fun index =>
    if h : index < values.length then unitPack values[index]
    else List.replicate formatLen 0)).flatten

/-! ## Decimal arithmetic model

Python `decimal.Decimal` values are exact rationals; an arithmetic operation
rounds its exact result to the precision of the ambient context, counted in
significant digits, with round half even.  `decQuantize prec q` is that
rounding step.  The magnitude exponent (floor of the base 10 logarithm) is
computed by the fuel based digit counts below so that every definition is a
plain structural recursion.
-/

/-- Fuel driven floor of `log10`: `natLog10F f n` is `0` for `n < 10` and
one more than the value at `n / 10` otherwise, provided `n ≤ f`. -/
def natLog10F : Nat → Nat → Nat
  | 0, _ => 0
  | f + 1, n => if n < 10 then 0 else natLog10F f (n / 10) + 1

/-- Floor of `log10 n` for `1 ≤ n`. -/
def natLog10 (n : Nat) : Nat := natLog10F n n

/-- Fuel driven ceiling of `log10`: the least `k` with `m ≤ 10 ^ k`. -/
def natCLog10F : Nat → Nat → Nat
  | 0, _ => 0
  | f + 1, m => if m ≤ 1 then 0 else natCLog10F f ((m + 9) / 10) + 1

/-- Ceiling of `log10 m`: the least `k` with `m ≤ 10 ^ k`. -/
def natCLog10 (m : Nat) : Nat := natCLog10F m m

/-- Integer powers of ten in `ℚ`, by case on the sign of the exponent. -/
def qpow10 : ℤ → ℚ
  | .ofNat k => 10 ^ k
  | .negSucc k => ((10 : ℚ) ^ (k + 1))⁻¹

/-- The floor of `log10 q` for positive `q`: the digit count of the integer
part for `q ≥ 1`, minus the ceiling digit count of `⌈q⁻¹⌉` otherwise. -/
def ratExp10 (q : ℚ) : ℤ :=
  if 1 ≤ q then (natLog10 ⌊q⌋.toNat : ℤ)
  else -(natCLog10 ⌈q⁻¹⌉.toNat : ℤ)

/-- Round half to even on `ℚ`: the nearest integer, ties going to the even
neighbour.  This is the default rounding of the Python decimal context. -/
def roundHalfEven (q : ℚ) : ℤ :=
  if q - ⌊q⌋ < 1 / 2 then ⌊q⌋
  else if 1 / 2 < q - ⌊q⌋ then ⌊q⌋ + 1
  else if ⌊q⌋ % 2 = 0 then ⌊q⌋ else ⌊q⌋ + 1

/-- Round a nonzero rational to `prec` significant decimal digits with round
half even; zero is returned unchanged.  This is the rounding a Python
decimal operation applies to its exact result under a context of precision
`prec`. -/
def decQuantize (prec : Nat) (q : ℚ) : ℚ :=
  if q = 0 then 0
  else
    (roundHalfEven (q * qpow10 (-(ratExp10 |q| - prec + 1))) : ℚ)
      * qpow10 (ratExp10 |q| - prec + 1)

/-- Python `int(q)` on a decimal: truncation toward zero. -/
def int_trunc (q : ℚ) : ℤ := if 0 ≤ q then ⌊q⌋ else -⌊-q⌋

/-! ## Fixed point element (src/namedstruct/elementfixedpoint.py) -/

/-- Model of `get_bits_length`: strip one of the prefixes handled by the source via
`strip_mode` (note `!` is absent from that list), then look the first
remaining character up in
`bits_format`, whose entry is the byte count of the code, and multiply the
byte count by 4.  The source iterates the `bits_format` dict with last match
winning; the four first character sets are disjoint so an if chain is
equivalent.  `none` models the `ValueError` raised when nothing matches. -/
def strip_mode (pack_format : List Char) : List Char :=
  match pack_format with
  | c :: rest => if c ∈ ['@', '=', '<', '>', '+'] then rest else c :: rest
  | [] => []

def get_bits_length (pack_format : List Char) : Option Nat :=
  match strip_mode pack_format with
  | [] => none
  | c :: _ =>
    if c ∈ ['q', 'Q'] then some (8 * 4)
    else if c ∈ ['i', 'I', 'l', 'L'] then some (4 * 4)
    else if c ∈ ['h', 'H'] then some (2 * 4)
    else if c ∈ ['c', 'b', 'B'] then some (1 * 4)
    else none

/-- Model of `get_fixed_point`: convert the input to an exact decimal (the model
takes the already converted rational), compute the bit budget, reject a
precision larger than the budget, reject a value at or above
`2 ^ (bits - precision)` (the signed value, not its absolute value, is
compared), then truncate `num * 2 ^ precision` to an integer.  The decimal
multiplication rounds at the ambient context precision `ctx`. -/
def get_fixed_point (ctx : Nat) (num : ℚ) (pack_format : List Char)
    (precision : Nat) : Except String Int :=
  match get_bits_length pack_format with
  | none => .error "pack format was not a valid fixed point specifier"
  | some bits =>
    if bits < precision then
      .error "specified a format that was too small for the given precision"
    else if (2 : ℚ) ^ (bits - precision) ≤ num then
      .error "num must fit in the specified number of available bits"
    else
      .ok (int_trunc (decQuantize ctx (num * 2 ^ precision)))

/-- The state of an `ElementFixedPoint` instance: the byte order mode
character, the primitive pack format, the fractional bit count, and the
optional output decimal precision (`False` in the source when absent,
`none` here). -/
structure ElementFixedPoint where
  mode : Char
  pack_format : List Char
  precision : Nat
  decimal_prec : Option Nat

/-- The derived `self.format = mode.value + self.pack_format`. -/
def ElementFixedPoint.format (e : ElementFixedPoint) : List Char :=
  e.mode :: e.pack_format

/-- The context precision selected by `ElementFixedPoint.unpack`:
`self.decimal_prec` when truthy, else 26 (a stored 0 is falsy in Python and
also selects 26). -/
def pyPrec : Option Nat → Nat
  | some dp => if dp = 0 then 26 else dp
  | none => 26

/-- Model of `ElementFixedPoint.pack`: `Decimal(msg[self.name])` (the model receives
the exact converted value), `get_fixed_point` on `self.format`, then the
primitive pack of the scaled integer.  `ctx` is the ambient decimal context
precision, which the multiplication inside `get_fixed_point` rounds at. -/
def ElementFixedPoint.pack (ctx : Nat) (e : ElementFixedPoint) (x : ℚ) :
    Except String (List Nat) :=
  match get_fixed_point ctx x e.format e.precision with
  | .error s => .error s
  | .ok fixed_point => struct_pack_int e.format fixed_point

/-- Wrapper for `ElementFixedPoint.pack` with the decimal context threaded as explicit
state: the source method contains no assignment to the context, so the
state is returned unchanged. -/
def ElementFixedPoint.packSt (ctx : Nat) (e : ElementFixedPoint) (x : ℚ) :
    Except String (List Nat) × Nat :=
  (ElementFixedPoint.pack ctx e x, ctx)

/-- Model of `ElementFixedPoint.unpack` with the decimal context threaded as explicit
state.  The source decodes the primitive integer, then assigns
`decimal.getcontext().prec` (to `decimal_prec` when truthy, else 26), then
divides by `2 ^ precision` under that context; the assignment persists, so
the returned state is the assigned precision on success and the incoming
state when the primitive decode raised first. -/
def ElementFixedPoint.unpackSt (ctx : Nat) (e : ElementFixedPoint)
    (buf : List Nat) : Except String (ℚ × List Nat) × Nat :=
  match struct_unpack_int e.format buf with
  | .error s => (.error s, ctx)
  | .ok ret =>
    let newPrec := pyPrec e.decimal_prec
    let ret_decimal := decQuantize newPrec ((ret : ℚ) / 2 ^ e.precision)
    ((.ok (ret_decimal, buf.drop (struct_calcsize e.format))), newPrec)

/-- Model of `ElementFixedPoint.make`: `self._struct.pack(msg[self.name])` — the raw
primitive pack of the supplied value, with no scaling and no decimal
conversion.  Only an integer input is accepted by the Python `struct` call,
so the model takes `v : ℤ`. -/
def ElementFixedPoint.make (e : ElementFixedPoint) (v : Int) :
    Except String (List Nat) :=
  struct_pack_int e.format v

/-! ## Byte layer lemmas -/

theorem length_natToBytesLE (k : Nat) : ∀ v, (natToBytesLE k v).length = k := by
  induction k with
  | zero => intro v; rfl
  | succ k ih => intro v; simp [natToBytesLE, ih]

theorem bytesToNatLE_natToBytesLE (k : Nat) :
    ∀ v, v < 256 ^ k → bytesToNatLE (natToBytesLE k v) = v := by
  induction k with
  | zero => intro v hv; interval_cases v; rfl
  | succ k ih =>
    intro v hv
    have hdiv : v / 256 < 256 ^ k := by
      apply Nat.div_lt_of_lt_mul
      calc v < 256 ^ (k + 1) := hv
        _ = 256 * 256 ^ k := by ring
    simp [natToBytesLE, bytesToNatLE, ih (v / 256) hdiv]
    omega

set_option maxHeartbeats 1000000 in
theorem codeInfo_size_pos {c : Char} {sz : Nat} {sg : Bool}
    (h : codeInfo c = some (sz, sg)) : 1 ≤ sz := by
  unfold codeInfo at h
  split_ifs at h <;> simp only [Option.some.injEq, Prod.mk.injEq] at h <;> omega

theorem parseFormat_size_pos {fmt : List Char} {big : Bool} {sz : Nat} {sg : Bool}
    (h : parseFormat fmt = some (big, sz, sg)) : 1 ≤ sz := by
  match fmt with
  | [] => simp [parseFormat] at h
  | [_] => simp [parseFormat] at h
  | _ :: _ :: _ :: _ => simp [parseFormat] at h
  | [m, c] =>
    simp only [parseFormat] at h
    cases hc : codeInfo c with
    | none => rw [hc] at h; simp at h
    | some p =>
      obtain ⟨sz', sg'⟩ := p
      rw [hc] at h
      split_ifs at h <;> simp only [Option.some.injEq, Prod.mk.injEq] at h <;>
        obtain ⟨-, rfl, -⟩ := h <;> exact codeInfo_size_pos hc

theorem struct_bytes_length (big : Bool) (sz : Nat) (v : Int) :
    (struct_bytes big sz v).length = sz := by
  cases big <;> simp [struct_bytes, length_natToBytesLE]

/-- Decoding the encoded bytes yields the two's complement word. -/
theorem struct_word_struct_bytes (big : Bool) (sz : Nat) (v : Int) :
    struct_word big sz (struct_bytes big sz v) = (v % (2 ^ (8 * sz) : Int)).toNat := by
  have hmod_nonneg : 0 ≤ v % (2 ^ (8 * sz) : Int) := Int.emod_nonneg v (by positivity)
  have hmod_lt : v % (2 ^ (8 * sz) : Int) < 2 ^ (8 * sz) :=
    Int.emod_lt_of_pos v (by positivity)
  have hwlt' : (v % (2 ^ (8 * sz) : Int)).toNat < 256 ^ sz := by
    have hcast : ((2 ^ (8 * sz) : Nat) : Int) = (2 ^ (8 * sz) : Int) := by push_cast; ring
    have h1 : (v % (2 ^ (8 * sz) : Int)).toNat < 2 ^ (8 * sz) := by omega
    calc (v % (2 ^ (8 * sz) : Int)).toNat < 2 ^ (8 * sz) := h1
      _ = 256 ^ sz := by rw [Nat.pow_mul]
  have htake : (struct_bytes big sz v).take sz = struct_bytes big sz v :=
    List.take_of_length_le (le_of_eq (struct_bytes_length big sz v))
  unfold struct_word
  rw [htake]
  cases big with
  | false =>
    simp only [struct_bytes, Bool.false_eq_true, if_false]
    exact bytesToNatLE_natToBytesLE sz _ hwlt'
  | true =>
    simp only [struct_bytes, if_true, List.reverse_reverse]
    exact bytesToNatLE_natToBytesLE sz _ hwlt'

/-- Inverting the primitive pack: whenever `struct.pack` accepts a value,
`struct.unpack_from` on the produced bytes recovers exactly that value. -/
theorem struct_unpack_struct_pack {fmt : List Char} {v : Int} {bs : List Nat}
    (h : struct_pack_int fmt v = .ok bs) : struct_unpack_int fmt bs = .ok v := by
  unfold struct_pack_int at h
  unfold struct_unpack_int
  cases hp : parseFormat fmt with
  | none => rw [hp] at h; exact absurd h (by simp)
  | some t =>
    obtain ⟨big, sz, sg⟩ := t
    have hsz : 1 ≤ sz := parseFormat_size_pos hp
    rw [hp] at h
    dsimp only at h
    dsimp only
    split at h
    · exact absurd h (by simp)
    · rename_i hrange
      have hbs : struct_bytes big sz v = bs := Except.ok.inj h
      have hlenb : bs.length = sz := by rw [← hbs]; exact struct_bytes_length big sz v
      have hnotshort : ¬ bs.length < sz := by omega
      rw [if_neg hnotshort]
      have hword : struct_word big sz bs = (v % (2 ^ (8 * sz) : Int)).toNat := by
        rw [← hbs]; exact struct_word_struct_bytes big sz v
      rw [hword]
      have hcastM : ((2 ^ (8 * sz) : Nat) : Int) = (2 ^ (8 * sz) : Int) := by
        push_cast; ring
      have hcasth : ((2 ^ (8 * sz - 1) : Nat) : Int) = (2 ^ (8 * sz - 1) : Int) := by
        push_cast; ring
      have hhalf : (2 : Int) ^ (8 * sz) = 2 * 2 ^ (8 * sz - 1) := by
        rw [← pow_succ']
        congr 1
        omega
      have hmod_nonneg : 0 ≤ v % (2 ^ (8 * sz) : Int) := Int.emod_nonneg v (by positivity)
      have hmod_lt : v % (2 ^ (8 * sz) : Int) < 2 ^ (8 * sz) :=
        Int.emod_lt_of_pos v (by positivity)
      have hwcast : (((v % (2 ^ (8 * sz) : Int)).toNat : Nat) : Int)
          = v % (2 ^ (8 * sz) : Int) := Int.toNat_of_nonneg hmod_nonneg
      unfold struct_signed
      cases sg with
      | false =>
        simp only [struct_lo, struct_hi, Bool.false_eq_true, if_false, not_or, not_lt] at hrange
        have hmodv : v % (2 ^ (8 * sz) : Int) = v :=
          Int.emod_eq_of_lt hrange.1 (by omega)
        simp only [Bool.false_eq_true, false_and, if_false]
        congr 1
        omega
      | true =>
        simp only [struct_lo, struct_hi, if_true, not_or, not_lt] at hrange
        obtain ⟨hlo, hhi⟩ := hrange
        rcases le_or_lt 0 v with h0 | h0
        · have hmodv : v % (2 ^ (8 * sz) : Int) = v :=
            Int.emod_eq_of_lt h0 (by omega)
          have hcond : ¬ (2 ^ (8 * sz - 1) : Nat) ≤ (v % (2 ^ (8 * sz) : Int)).toNat := by
            omega
          rw [if_neg (by simp only [true_and]; exact hcond)]
          congr 1
          omega
        · have hmodv : v % (2 ^ (8 * sz) : Int) = v + 2 ^ (8 * sz) := by
            have h1 : (v + 2 ^ (8 * sz)) % (2 ^ (8 * sz) : Int) = v + 2 ^ (8 * sz) :=
              Int.emod_eq_of_lt (by omega) (by omega)
            have h2 : (v + 2 ^ (8 * sz)) % (2 ^ (8 * sz) : Int) = v % (2 ^ (8 * sz) : Int) := by
              have h3 := Int.add_mul_emod_self_left v ((2 : Int) ^ (8 * sz)) 1
              simpa using h3
            omega
          have hcond : (2 ^ (8 * sz - 1) : Nat) ≤ (v % (2 ^ (8 * sz) : Int)).toNat := by
            omega
          rw [if_pos (by exact ⟨rfl, hcond⟩)]
          congr 1
          omega

/-! ## Enum lemmas and claims C5, C6 -/

theorem find?_ename_eq {l : List PyEnumMember} {m : PyEnumMember}
    (hnodup : (l.map PyEnumMember.ename).Nodup) (hmem : m ∈ l) :
    l.find? (fun mm => mm.ename == m.ename) = some m := by
  induction l with
  | nil => cases hmem
  | cons a t ih =>
    rcases List.mem_cons.mp hmem with rfl | hmt
    · simp [List.find?]
    · have hna : a.ename ∉ t.map PyEnumMember.ename := (List.nodup_cons.mp hnodup).1
      have hne : (a.ename == m.ename) = false := by
        have : a.ename ≠ m.ename := by
          intro he
          exact hna (he ▸ List.mem_map_of_mem PyEnumMember.ename hmt)
        simpa using this
      rw [List.find?_cons_of_neg _ (by simpa using hne)]
      exact ih (List.nodup_cons.mp hnodup).2 hmt

theorem find?_value_spec {l : List PyEnumMember} {m : PyEnumMember} (hmem : m ∈ l) :
    ∃ mm, l.find? (fun mm => mm.value == m.value) = some mm ∧ mm.value = m.value := by
  have hsome : (l.find? (fun mm => mm.value == m.value)).isSome := by
    rw [List.find?_isSome]
    exact ⟨m, hmem, by simp⟩
  obtain ⟨mm, hmm⟩ := Option.isSome_iff_exists.mp hsome
  refine ⟨mm, hmm, ?_⟩
  have := List.find?_some hmm
  simpa using this

/-- C5: for every enum element and every member `m` of its referenced
enumeration, packing the member instance, packing its member name as a
string, and packing its raw underlying value produce identical bytes: all
three normalisation paths of `ElementEnum.pack` reach a member carrying the
same underlying value, so the primitive pack and the padding agree. -/
theorem enum_normalization_pack_agrees (fmt : List Char) (alignment : Nat)
    (ref : PyEnum) (m : PyEnumMember) (hmem : m ∈ ref.members)
    (hnodup : (ref.members.map PyEnumMember.ename).Nodup) :
    ElementEnum.pack fmt alignment ref (.member m)
      = ElementEnum.pack fmt alignment ref (.str m.ename) ∧
    ElementEnum.pack fmt alignment ref (.member m)
      = ElementEnum.pack fmt alignment ref (.raw m.value) := by
  have h1 : ElementEnum.normalize ref (.str m.ename) = .ok m.value := by
    simp [ElementEnum.normalize, find?_ename_eq hnodup hmem]
  have h2 : ElementEnum.normalize ref (.raw m.value) = .ok m.value := by
    obtain ⟨mm, hf, hv⟩ := find?_value_spec hmem
    simp [ElementEnum.normalize, hf, hv]
  have h0 : ElementEnum.normalize ref (.member m) = .ok m.value := rfl
  constructor <;> simp [ElementEnum.pack, h0, h1, h2]

/-- C5 witness: the three pack calls agree on a concrete two member enum
with the one byte format and alignment 1. -/
theorem enum_normalization_pack_agrees_witness :
    (ElementEnum.pack ['=', 'B'] 1 ⟨[⟨"A", 1⟩, ⟨"C", 2⟩]⟩ (.member ⟨"A", 1⟩)
      = ElementEnum.pack ['=', 'B'] 1 ⟨[⟨"A", 1⟩, ⟨"C", 2⟩]⟩ (.str "A")) ∧
    (ElementEnum.pack ['=', 'B'] 1 ⟨[⟨"A", 1⟩, ⟨"C", 2⟩]⟩ (.member ⟨"A", 1⟩)
      = ElementEnum.pack ['=', 'B'] 1 ⟨[⟨"A", 1⟩, ⟨"C", 2⟩]⟩ (.raw 1)) :=
  enum_normalization_pack_agrees ['=', 'B'] 1 ⟨[⟨"A", 1⟩, ⟨"C", 2⟩]⟩ ⟨"A", 1⟩
    (by decide) (by decide)

/-- C6: the claim asserts `len(pack(v))` equals the layout size rounded up
to the alignment.  The source instead appends `len(data) % alignment` bytes:
for the one byte format `=B` under alignment 4 the packed field is 2 bytes,
not the 4 the claim requires, so the claim fails on the code (the spec's
rounded up size is the evident intent of the padding comment in the
source). -/
theorem enum_alignment_padding_short :
    ElementEnum.pack ['=', 'B'] 4 ⟨[⟨"A", 1⟩]⟩ (.member ⟨"A", 1⟩) = .ok [1, 0] ∧
    alignUp (struct_calcsize ['=', 'B']) 4 = 4 ∧
    ([1, 0] : List Nat).length ≠ alignUp (struct_calcsize ['=', 'B']) 4 := by
  refine ⟨rfl, by decide, by decide⟩

/-! ## Variable element claims C2, C3, C4, C7 -/

/-- C2: the claim asserts the byte length linked pack keeps a running total
of appended bytes within the referenced budget.  The source initialises
`length = 0` and never increments it, so every unit whose individual size
fits the budget is appended: two 4 byte units against a budget of 4 pack to
8 bytes, exceeding the budget the claim promises is never exceeded. -/
theorem variable_bytelinked_pack_overflows :
    (ElementVariable.packVarBytes (fun _ : Unit => [0, 0, 0, 0]) 4 [(), ()]).length = 8 ∧
    4 < (ElementVariable.packVarBytes (fun _ : Unit => [0, 0, 0, 0]) 4 [(), ()]).length := by
  refine ⟨by decide, by decide⟩

/-- C3: the claim asserts the byte length linked unpack accumulates the
consumed byte length and stops at the budget.  The source adds `len(val)`
of each decoded record — its field count, not its byte size.  With a nested
format of one 2 byte field (each record contributes 1 to the total but
consumes 2 bytes) and a budget of 4, the loop runs 4 iterations and consumes
all 8 bytes of the buffer instead of stopping after 4 bytes. -/
theorem variable_bytelinked_unpack_counts_fields :
    ElementVariable.unpackVarBytes 9 (fun b => (([0] : List Int), b.drop 2)) List.length 4
      (List.replicate 8 0) = some ([[0], [0], [0], [0]], []) := by

  decide

/-- C4: object count linked pack emits one nested encoding per entry of the
value list — ignoring the referenced count field, whose value `r1`/`r2` the
source never reads on this path — and unpack invokes the nested partial
unpack exactly `count` times, consuming exactly the packed units and
returning the untouched remainder, whenever the nested unpack inverts the
nested pack. -/
theorem variable_objectcount_pack_unpack {α : Type} (unitPack : Dict → List Nat)
    (unitUnpack : List Nat → α × List Nat) (conv : Dict → α)
    (hinv : ∀ d r, unitUnpack (unitPack d ++ r) = (conv d, r))
    (ds : List Dict) (rest : List Nat) (r1 r2 : Nat) :
    ElementVariable.packVarObjects unitPack (ds.map some) r1 = (ds.map unitPack).flatten ∧
    ElementVariable.packVarObjects unitPack (ds.map some) r1
      = ElementVariable.packVarObjects unitPack (ds.map some) r2 ∧
    ElementVariable.unpackVarObjects unitUnpack ds.length
        (ElementVariable.packVarObjects unitPack (ds.map some) r1 ++ rest)
      = (ds.map conv, rest) := by
  have hpack : ElementVariable.packVarObjects unitPack (ds.map some) r1
      = (ds.map unitPack).flatten := by
    unfold ElementVariable.packVarObjects
    rw [List.map_map]
    rfl
  refine ⟨hpack, rfl, ?_⟩
  rw [hpack]
  clear hpack
  induction ds generalizing rest with
  | nil => simp [ElementVariable.unpackVarObjects]
  | cons d ds ih =>
    simp only [List.map_cons, List.flatten_cons, List.length_cons,
      ElementVariable.unpackVarObjects, List.append_assoc, hinv]
    rw [ih]

/-- C4 witness: a concrete nested codec (one byte recording the dict size)
on two records, with differing values 7 and 8 stored in the count field. -/
theorem variable_objectcount_pack_unpack_witness :
    (ElementVariable.packVarObjects (fun d => [d.length]) ([[("a", 1)], []].map some) 7
      = ([[("a", 1)], []].map (fun d : Dict => [d.length])).flatten) ∧
    (ElementVariable.packVarObjects (fun d => [d.length]) ([[("a", 1)], []].map some) 7
      = ElementVariable.packVarObjects (fun d => [d.length]) ([[("a", 1)], []].map some) 8) ∧
    (ElementVariable.unpackVarObjects (fun b => (b.take 1, b.drop 1))
        ([[("a", 1)], ([] : Dict)].length)
        (ElementVariable.packVarObjects (fun d => [d.length]) ([[("a", 1)], []].map some) 7 ++ [9])
      = ([[("a", 1)], ([] : Dict)].map (fun d => [d.length]), [9])) :=
  variable_objectcount_pack_unpack (fun d => [d.length]) (fun b => (b.take 1, b.drop 1))
    (fun d => [d.length]) (by intro d r; simp) [[("a", 1)], []] [9] 7 8

theorem flatten_range_replicate (k s : Nat) :
    ((List.range k).map (fun _ => List.replicate s (0 : Nat))).flatten
      = List.replicate (k * s) 0 := by
  induction k with
  | zero => simp
  | succ k ih =>
    rw [List.range_succ, List.map_append, List.flatten_append, ih]
    simp only [List.map_cons, List.map_nil, List.flatten_cons, List.flatten_nil,
      List.append_nil]
    rw [Nat.succ_mul, List.replicate_add]

theorem flatten_map_length_const {α : Type} (f : α → List Nat) (s : Nat) :
    ∀ l : List α, (∀ a ∈ l, (f a).length = s) →
      ((l.map f).flatten).length = l.length * s := by
  intro l
  induction l with
  | nil => intro _; simp
  | cons a t ih =>
    intro h
    simp only [List.map_cons, List.flatten_cons, List.length_append, List.length_cons]
    rw [h a (by simp), ih (fun x hx => h x (by simp [hx]))]
    ring

theorem packFixedRepeat_eq {α : Type} (unitPack : α → List Nat) (s : Nat) :
    ∀ (values : List α) (refN : Nat), values.length ≤ refN →
      ElementVariable.packFixedRepeat unitPack s refN values
        = (values.map unitPack).flatten ++ List.replicate ((refN - values.length) * s) 0 := by
  intro values
  induction values with
  | nil =>
    intro refN _
    unfold ElementVariable.packFixedRepeat
    have hbody : (List.range refN).map (fun index =>
        if h : index < ([] : List α).length then unitPack ([] : List α)[index]
        else List.replicate s 0)
        = (List.range refN).map (fun _ => List.replicate s (0 : Nat)) := by
      apply List.map_congr_left
      intro i _
      rw [dif_neg (by simp)]
    rw [hbody, flatten_range_replicate]
    simp
  | cons v vs ih =>
    intro refN hle
    cases refN with
    | zero => simp at hle
    | succ n =>
      have hle' : vs.length ≤ n := by simpa using hle
      unfold ElementVariable.packFixedRepeat
      rw [List.range_succ_eq_map]
      simp only [List.map_cons, List.flatten_cons]
      have hhead : (if h : 0 < (v :: vs).length then unitPack (v :: vs)[0]
          else List.replicate s 0) = unitPack v := by
        rw [dif_pos (by simp)]
        simp
      have htail : (List.map Nat.succ (List.range n)).map (fun index =>
          if h : index < (v :: vs).length then unitPack (v :: vs)[index]
          else List.replicate s 0)
          = (List.range n).map (fun index =>
            if h : index < vs.length then unitPack vs[index]
            else List.replicate s 0) := by
        rw [List.map_map]
        apply List.map_congr_left
        intro i _
        by_cases hi : i < vs.length
        · have hi' : Nat.succ i < (v :: vs).length := by
            simp [Nat.succ_lt_succ hi]
          rw [Function.comp_apply, dif_pos hi', dif_pos hi]
          simp
        · have hi' : ¬ Nat.succ i < (v :: vs).length := by
            simp only [List.length_cons]
            omega
          rw [Function.comp_apply, dif_neg hi', dif_neg hi]
      rw [hhead, htail]
      have ih' := ih n hle'
      unfold ElementVariable.packFixedRepeat at ih'
      rw [ih']
      have hsub : n + 1 - (v :: vs).length = n - vs.length := by
        simp only [List.length_cons]
        omega
      rw [hsub, List.append_assoc]

/-- C7: for a fixed repeat variable element with literal repeat count
`refN`, packing a value list with at most `refN` entries emits the encoded
units in order and pads each missing slot with `len(self.format)` zero
bytes; with the nested format length taken as the byte size `s` of one
encoded unit (see `ElementVariable.packFixedRepeat`), the packed output has
total length `refN * s`. -/
theorem variable_fixedrepeat_padding {α : Type} (unitPack : α → List Nat) (s refN : Nat)
    (values : List α) (hlen : ∀ a ∈ values, (unitPack a).length = s)
    (hN : values.length ≤ refN) :
    ElementVariable.packFixedRepeat unitPack s refN values
      = (values.map unitPack).flatten ++ List.replicate ((refN - values.length) * s) 0 ∧
    (ElementVariable.packFixedRepeat unitPack s refN values).length = refN * s := by
  have heq := packFixedRepeat_eq unitPack s values refN hN
  refine ⟨heq, ?_⟩
  rw [heq, List.length_append, flatten_map_length_const unitPack s values hlen,
    List.length_replicate]
  have hsum : values.length + (refN - values.length) = refN := by omega
  rw [← Nat.add_mul, hsum]

/-- C7 witness: three slots, one present two byte value, two padded slots,
total length 6. -/
theorem variable_fixedrepeat_padding_witness :
    (ElementVariable.packFixedRepeat (fun a : Nat => [a, a]) 2 3 [5]
      = (([5] : List Nat).map (fun a : Nat => [a, a])).flatten
          ++ List.replicate ((3 - ([5] : List Nat).length) * 2) 0) ∧
    (ElementVariable.packFixedRepeat (fun a : Nat => [a, a]) 2 3 [5]).length = 3 * 2 :=
  variable_fixedrepeat_padding (fun a : Nat => [a, a]) 2 3 [5] (by decide) (by decide)

/-! ## Decimal layer lemmas -/

theorem natLog10F_spec : ∀ f n : Nat, n ≤ f → 1 ≤ n →
    10 ^ natLog10F f n ≤ n ∧ n < 10 ^ (natLog10F f n + 1) := by
  intro f
  induction f with
  | zero => intro n hf h1; omega
  | succ f ih =>
    intro n hf h1
    unfold natLog10F
    by_cases hn : n < 10
    · rw [if_pos hn]
      exact ⟨by simpa using h1, by simpa using hn⟩
    · rw [if_neg hn]
      obtain ⟨hlo, hhi⟩ := ih (n / 10) (by omega) (by omega)
      set L := natLog10F f (n / 10) with hL
      have hB : (10 : Nat) ^ (L + 1) = 10 * 10 ^ L := by ring
      have hC : (10 : Nat) ^ (L + 1 + 1) = 10 * 10 ^ (L + 1) := by ring
      constructor
      · omega
      · omega

theorem natLog10_spec (n : Nat) (h1 : 1 ≤ n) :
    10 ^ natLog10 n ≤ n ∧ n < 10 ^ (natLog10 n + 1) :=
  natLog10F_spec n n le_rfl h1

theorem natCLog10F_spec : ∀ f m : Nat, m ≤ f →
    m ≤ 10 ^ natCLog10F f m ∧ (1 ≤ natCLog10F f m → 10 ^ (natCLog10F f m - 1) < m) := by
  intro f
  induction f with
  | zero =>
    intro m hf
    refine ⟨by simpa [natCLog10F] using (by omega : m ≤ 1), ?_⟩
    intro h
    simp [natCLog10F] at h
  | succ f ih =>
    intro m hf
    unfold natCLog10F
    by_cases hm : m ≤ 1
    · rw [if_pos hm]
      exact ⟨by simpa using hm, by omega⟩
    · rw [if_neg hm]
      obtain ⟨hub, hlb⟩ := ih ((m + 9) / 10) (by omega)
      set K := natCLog10F f ((m + 9) / 10) with hK
      have hB : (10 : Nat) ^ (K + 1) = 10 * 10 ^ K := by ring
      constructor
      · omega
      · intro _
        simp only [Nat.add_sub_cancel]
        rcases Nat.eq_zero_or_pos K with h0 | hpos
        · rw [h0] at hB ⊢
          simp at hB ⊢
          omega
        · have hlb' := hlb hpos
          have hA : (10 : Nat) ^ K = 10 * 10 ^ (K - 1) := by
            have hK1 : K - 1 + 1 = K := by omega
            calc (10 : Nat) ^ K = 10 ^ (K - 1 + 1) := by rw [hK1]
              _ = 10 * 10 ^ (K - 1) := by ring
          omega

theorem natCLog10_spec (m : Nat) :
    m ≤ 10 ^ natCLog10 m ∧ (1 ≤ natCLog10 m → 10 ^ (natCLog10 m - 1) < m) :=
  natCLog10F_spec m m le_rfl

theorem qpow10_natCast (k : Nat) : qpow10 (k : ℤ) = 10 ^ k := rfl

theorem qpow10_eq_zpow (s : ℤ) : qpow10 s = (10 : ℚ) ^ s := by
  cases s with
  | ofNat k => rw [qpow10]; exact (zpow_natCast (10 : ℚ) k).symm
  | negSucc k => rw [qpow10]; exact (zpow_negSucc (10 : ℚ) k).symm

theorem qpow10_pos (s : ℤ) : 0 < qpow10 s := by
  rw [qpow10_eq_zpow]
  exact zpow_pos (by norm_num) s

theorem qpow10_neg_mul (s : ℤ) : qpow10 (-s) * qpow10 s = 1 := by
  rw [qpow10_eq_zpow, qpow10_eq_zpow, ← zpow_add₀ (by norm_num : (10 : ℚ) ≠ 0)]
  simp

theorem qpow10_neg_natCast (k : Nat) : qpow10 (-(k : ℤ)) = ((10 : ℚ) ^ k)⁻¹ := by
  rw [qpow10_eq_zpow, zpow_neg, zpow_natCast]

theorem qpow10_le_one {s : ℤ} (hs : s ≤ 0) : qpow10 s ≤ 1 := by
  rw [qpow10_eq_zpow]
  calc (10 : ℚ) ^ s ≤ 10 ^ (0 : ℤ) :=
    zpow_le_zpow_right₀ (by norm_num) hs
  _ = 1 := by norm_num

theorem ratExp10_spec {q : ℚ} (hq : 0 < q) :
    qpow10 (ratExp10 q) ≤ q ∧ q < qpow10 (ratExp10 q + 1) := by
  unfold ratExp10
  by_cases h1 : 1 ≤ q
  · rw [if_pos h1]
    have hfl : (1 : ℤ) ≤ ⌊q⌋ := by
      rw [Int.le_floor]
      exact_mod_cast h1
    set n := ⌊q⌋.toNat with hn
    have hn1 : 1 ≤ n := by omega
    have hncast : ((n : ℕ) : ℚ) = ((⌊q⌋ : ℤ) : ℚ) := by
      have : ((n : ℕ) : ℤ) = ⌊q⌋ := Int.toNat_of_nonneg (by omega)
      exact_mod_cast this
    obtain ⟨hlo, hhi⟩ := natLog10_spec n hn1
    set L := natLog10 n with hL
    constructor
    · rw [qpow10_natCast]
      have h2 : ((10 : ℕ) ^ L : ℚ) ≤ (n : ℚ) := by exact_mod_cast hlo
      calc (10 : ℚ) ^ L = ((10 : ℕ) ^ L : ℚ) := by push_cast; ring
        _ ≤ (n : ℚ) := h2
        _ = ((⌊q⌋ : ℤ) : ℚ) := hncast
        _ ≤ q := Int.floor_le q
    · have : ((L : ℤ) + 1) = ((L + 1 : ℕ) : ℤ) := by push_cast; ring
      rw [this, qpow10_natCast]
      have h2 : ((n + 1 : ℕ) : ℚ) ≤ ((10 : ℕ) ^ (L + 1) : ℚ) := by exact_mod_cast hhi
      calc q < ((⌊q⌋ : ℤ) : ℚ) + 1 := Int.lt_floor_add_one q
        _ = (n : ℚ) + 1 := by rw [hncast]
        _ = ((n + 1 : ℕ) : ℚ) := by push_cast; ring
        _ ≤ ((10 : ℕ) ^ (L + 1) : ℚ) := h2
        _ = (10 : ℚ) ^ (L + 1) := by push_cast; ring
  · rw [if_neg h1]
    push_neg at h1
    have hinv1 : 1 < q⁻¹ := by
      rw [one_lt_inv_iff₀]
      exact ⟨hq, h1⟩
    have hceil2 : (2 : ℤ) ≤ ⌈q⁻¹⌉ := by
      have : (1 : ℤ) < ⌈q⁻¹⌉ := by
        rw [Int.lt_ceil]
        exact_mod_cast hinv1
      omega
    set m := ⌈q⁻¹⌉.toNat with hm
    have hm2 : 2 ≤ m := by omega
    have hmcast : ((m : ℕ) : ℚ) = ((⌈q⁻¹⌉ : ℤ) : ℚ) := by
      have : ((m : ℕ) : ℤ) = ⌈q⁻¹⌉ := Int.toNat_of_nonneg (by omega)
      exact_mod_cast this
    obtain ⟨hub, hlb⟩ := natCLog10_spec m
    set K := natCLog10 m with hK
    have hK1 : 1 ≤ K := by
      rcases Nat.eq_zero_or_pos K with h0 | h
      · rw [h0] at hub
        simp at hub
        omega
      · exact h
    constructor
    · rw [qpow10_neg_natCast]
      have hqinv : q⁻¹ ≤ (10 : ℚ) ^ K := by
        calc q⁻¹ ≤ ((⌈q⁻¹⌉ : ℤ) : ℚ) := Int.le_ceil q⁻¹
          _ = (m : ℚ) := hmcast.symm
          _ ≤ ((10 : ℕ) ^ K : ℚ) := by exact_mod_cast hub
          _ = (10 : ℚ) ^ K := by push_cast; ring
      calc ((10 : ℚ) ^ K)⁻¹ ≤ (q⁻¹)⁻¹ :=
        inv_anti₀ (by positivity) hqinv
      _ = q := inv_inv q
    · have hexp : (-(K : ℤ) + 1) = -(((K - 1 : ℕ)) : ℤ) := by push_cast; omega
      rw [hexp, qpow10_neg_natCast]
      have hlt : (10 : ℚ) ^ (K - 1 : ℕ) < q⁻¹ := by
        have hlb' := hlb hK1
        have h3 : (10 : ℕ) ^ (K - 1) ≤ m - 1 := by omega
        calc (10 : ℚ) ^ (K - 1 : ℕ) = ((10 : ℕ) ^ (K - 1) : ℚ) := by push_cast; ring
          _ ≤ ((m - 1 : ℕ) : ℚ) := by exact_mod_cast h3
          _ = (m : ℚ) - 1 := by
            have : (1 : ℕ) ≤ m := by omega
            push_cast [this]
            ring
          _ = ((⌈q⁻¹⌉ : ℤ) : ℚ) - 1 := by rw [hmcast]
          _ < q⁻¹ := by
            have := Int.ceil_lt_add_one q⁻¹
            push_cast at this ⊢
            linarith
      calc q = (q⁻¹)⁻¹ := (inv_inv q).symm
        _ < ((10 : ℚ) ^ (K - 1 : ℕ))⁻¹ := by
          apply inv_strictAnti₀ (by positivity) hlt

theorem roundHalfEven_intCast (k : ℤ) : roundHalfEven (k : ℚ) = k := by
  unfold roundHalfEven
  rw [Int.floor_intCast, if_pos (by norm_num)]

theorem roundHalfEven_sub_abs_le (q : ℚ) : |(roundHalfEven q : ℚ) - q| ≤ 1 / 2 := by
  unfold roundHalfEven
  have h0 : (0 : ℚ) ≤ q - ⌊q⌋ := by
    have := Int.floor_le q
    linarith
  have h1 : q - ⌊q⌋ < 1 := by
    have := Int.lt_floor_add_one q
    linarith
  by_cases hlt : q - ⌊q⌋ < 1 / 2
  · rw [if_pos hlt, abs_le]
    constructor <;> linarith
  · rw [if_neg hlt]
    by_cases hgt : 1 / 2 < q - ⌊q⌋
    · rw [if_pos hgt, abs_le]
      push_cast
      constructor <;> linarith
    · rw [if_neg hgt]
      have heq : q - ⌊q⌋ = 1 / 2 := by linarith
      by_cases hev : ⌊q⌋ % 2 = 0
      · rw [if_pos hev, abs_le]
        constructor <;> linarith
      · rw [if_neg hev, abs_le]
        push_cast
        constructor <;> linarith

theorem decQuantize_exact {p : Nat} {q : ℚ} (hq : q ≠ 0)
    (h : ∃ k : ℤ, q * qpow10 (-(ratExp10 |q| - p + 1)) = (k : ℚ)) :
    decQuantize p q = q := by
  obtain ⟨k, hk⟩ := h
  unfold decQuantize
  rw [if_neg hq, hk, roundHalfEven_intCast, ← hk, mul_assoc, qpow10_neg_mul, mul_one]

theorem decQuantize_err {p : Nat} {q : ℚ} (hq : q ≠ 0) :
    |decQuantize p q - q| ≤ qpow10 (ratExp10 |q| - p + 1) / 2 := by
  unfold decQuantize
  rw [if_neg hq]
  set s := ratExp10 |q| - (p : ℤ) + 1 with hsdef
  have hrw : q = (q * qpow10 (-s)) * qpow10 s := by
    rw [mul_assoc, qpow10_neg_mul, mul_one]
  nth_rewrite 2 [hrw]
  rw [← sub_mul, abs_mul, abs_of_pos (qpow10_pos s)]
  have hb := roundHalfEven_sub_abs_le (q * qpow10 (-s))
  calc |(roundHalfEven (q * qpow10 (-s)) : ℚ) - q * qpow10 (-s)| * qpow10 s
      ≤ (1 / 2) * qpow10 s :=
        mul_le_mul_of_nonneg_right hb (le_of_lt (qpow10_pos s))
    _ = qpow10 s / 2 := by ring

theorem decQuantize_int_le {p : Nat} {q : ℚ} (n : ℤ) (hq : 0 < q)
    (hs : ratExp10 |q| - p + 1 ≤ 0) (hnq : (n : ℚ) ≤ q) :
    (n : ℚ) ≤ decQuantize p q := by
  unfold decQuantize
  rw [if_neg (ne_of_gt hq)]
  set s := ratExp10 |q| - (p : ℤ) + 1 with hsdef
  set t := (-s).toNat with ht
  have hts : ((t : ℕ) : ℤ) = -s := Int.toNat_of_nonneg (by omega)
  have hq10 : qpow10 (-s) = 10 ^ t := by rw [← hts, qpow10_natCast]
  have hz : ((n * 10 ^ t : ℤ) : ℚ) ≤ q * qpow10 (-s) := by
    rw [hq10]
    push_cast
    exact mul_le_mul_of_nonneg_right hnq (by positivity)
  have hR : ((n * 10 ^ t : ℤ) : ℚ) ≤ (roundHalfEven (q * qpow10 (-s)) : ℚ) := by
    have habs := roundHalfEven_sub_abs_le (q * qpow10 (-s))
    rw [abs_le] at habs
    have h2 : ((n * 10 ^ t : ℤ) : ℚ) - 1 < (roundHalfEven (q * qpow10 (-s)) : ℚ) := by
      linarith [habs.1]
    have h3 : (n * 10 ^ t : ℤ) - 1 < roundHalfEven (q * qpow10 (-s)) := by exact_mod_cast h2
    have h4 : (n * 10 ^ t : ℤ) ≤ roundHalfEven (q * qpow10 (-s)) := by omega
    exact_mod_cast h4
  have hfinal : ((n * 10 ^ t : ℤ) : ℚ) * qpow10 s
      ≤ (roundHalfEven (q * qpow10 (-s)) : ℚ) * qpow10 s :=
    mul_le_mul_of_nonneg_right hR (le_of_lt (qpow10_pos s))
  calc (n : ℚ) = ((n * 10 ^ t : ℤ) : ℚ) * qpow10 s := by
        push_cast
        rw [mul_assoc, show ((10 : ℚ) ^ t) = qpow10 (-s) from hq10.symm,
          qpow10_neg_mul, mul_one]
    _ ≤ (roundHalfEven (q * qpow10 (-s)) : ℚ) * qpow10 s := hfinal

theorem decQuantize_le_int {p : Nat} {q : ℚ} (M : ℤ) (hq : 0 < q)
    (hs : ratExp10 |q| - p + 1 ≤ 0) (hqM : q ≤ (M : ℚ)) :
    decQuantize p q ≤ (M : ℚ) := by
  unfold decQuantize
  rw [if_neg (ne_of_gt hq)]
  set s := ratExp10 |q| - (p : ℤ) + 1 with hsdef
  set t := (-s).toNat with ht
  have hts : ((t : ℕ) : ℤ) = -s := Int.toNat_of_nonneg (by omega)
  have hq10 : qpow10 (-s) = 10 ^ t := by rw [← hts, qpow10_natCast]
  have hz : q * qpow10 (-s) ≤ ((M * 10 ^ t : ℤ) : ℚ) := by
    rw [hq10]
    push_cast
    exact mul_le_mul_of_nonneg_right hqM (by positivity)
  have hR : (roundHalfEven (q * qpow10 (-s)) : ℚ) ≤ ((M * 10 ^ t : ℤ) : ℚ) := by
    have habs := roundHalfEven_sub_abs_le (q * qpow10 (-s))
    rw [abs_le] at habs
    have h2 : (roundHalfEven (q * qpow10 (-s)) : ℚ) < ((M * 10 ^ t : ℤ) : ℚ) + 1 := by
      linarith [habs.2]
    have h3 : roundHalfEven (q * qpow10 (-s)) < (M * 10 ^ t : ℤ) + 1 := by exact_mod_cast h2
    have h4 : roundHalfEven (q * qpow10 (-s)) ≤ (M * 10 ^ t : ℤ) := by omega
    exact_mod_cast h4
  have hfinal : (roundHalfEven (q * qpow10 (-s)) : ℚ) * qpow10 s
      ≤ ((M * 10 ^ t : ℤ) : ℚ) * qpow10 s :=
    mul_le_mul_of_nonneg_right hR (le_of_lt (qpow10_pos s))
  calc (roundHalfEven (q * qpow10 (-s)) : ℚ) * qpow10 s
      ≤ ((M * 10 ^ t : ℤ) : ℚ) * qpow10 s := hfinal
    _ = (M : ℚ) := by
        push_cast
        rw [mul_assoc, show ((10 : ℚ) ^ t) = qpow10 (-s) from hq10.symm,
          qpow10_neg_mul, mul_one]

theorem ratExp10_le_of_lt {q : ℚ} (hq : 0 < q) {k : ℤ} (h : q < qpow10 (k + 1)) :
    ratExp10 q ≤ k := by
  by_contra hc
  push_neg at hc
  have h1 : qpow10 (k + 1) ≤ qpow10 (ratExp10 q) := by
    rw [qpow10_eq_zpow, qpow10_eq_zpow]
    exact zpow_le_zpow_right₀ (by norm_num) (by omega)
  have h2 := (ratExp10_spec hq).1
  linarith

/-- The scaled integer chosen by a context of at least 5 digits: truncation
after decimal rounding stays within one unit of the exact product and never
escapes `[0, 2 ^ bits]` when the exact product lies in `[0, 2 ^ bits)`. -/
theorem trunc_decQuantize_close {ctx bits : Nat} (hctx : 5 ≤ ctx) (hbits : bits ≤ 16)
    {y : ℚ} (hy0 : 0 ≤ y) (hylt : y < 2 ^ bits) :
    0 ≤ int_trunc (decQuantize ctx y) ∧
    int_trunc (decQuantize ctx y) ≤ 2 ^ bits ∧
    |((int_trunc (decQuantize ctx y) : ℤ) : ℚ) - y| < 1 := by
  rcases eq_or_lt_of_le hy0 with hy0' | hypos
  · rw [← hy0']
    unfold decQuantize int_trunc
    norm_num
  · have hyne : y ≠ 0 := ne_of_gt hypos
    have habs : |y| = y := abs_of_pos hypos
    have he4 : ratExp10 |y| ≤ 4 := by
      rw [habs]
      apply ratExp10_le_of_lt hypos
      have h5 : qpow10 (4 + 1) = 100000 := by
        rw [show ((4 : ℤ) + 1) = ((5 : ℕ) : ℤ) from by norm_num, qpow10_natCast]
        norm_num
      rw [h5]
      calc y < 2 ^ bits := hylt
        _ ≤ 2 ^ 16 := by
          apply pow_le_pow_right₀ (by norm_num) hbits
        _ < 100000 := by norm_num
    have hs : ratExp10 |y| - ctx + 1 ≤ 0 := by omega
    have herr : |decQuantize ctx y - y| ≤ 1 / 2 := by
      have h1 := decQuantize_err (p := ctx) hyne
      have h2 := qpow10_le_one hs
      have h3 := qpow10_pos (ratExp10 |y| - ctx + 1)
      calc |decQuantize ctx y - y| ≤ qpow10 (ratExp10 |y| - ctx + 1) / 2 := h1
        _ ≤ 1 / 2 := by linarith
    have hn0 : (0 : ℤ) ≤ ⌊y⌋ := Int.floor_nonneg.mpr hy0
    have hnle : ((⌊y⌋ : ℤ) : ℚ) ≤ decQuantize ctx y :=
      decQuantize_int_le ⌊y⌋ hypos hs (Int.floor_le y)
    have hM : decQuantize ctx y ≤ (((2 : ℤ) ^ bits : ℤ) : ℚ) := by
      apply decQuantize_le_int ((2 : ℤ) ^ bits) hypos hs
      push_cast
      exact le_of_lt hylt
    have hR0 : 0 ≤ decQuantize ctx y := by
      have h9 : (0 : ℚ) ≤ ((⌊y⌋ : ℤ) : ℚ) := by exact_mod_cast hn0
      linarith
    have htr : int_trunc (decQuantize ctx y) = ⌊decQuantize ctx y⌋ := by
      unfold int_trunc
      rw [if_pos hR0]
    refine ⟨?_, ?_, ?_⟩
    · rw [htr]
      exact Int.floor_nonneg.mpr hR0
    · rw [htr]
      calc ⌊decQuantize ctx y⌋ ≤ ⌊(((2 : ℤ) ^ bits : ℤ) : ℚ)⌋ := Int.floor_le_floor hM
        _ = (2 : ℤ) ^ bits := Int.floor_intCast _
        _ = 2 ^ bits := rfl
    · rw [htr]
      have hfl : ((⌊y⌋ : ℤ) : ℚ) ≤ y := Int.floor_le y
      have hfl1 : y < ((⌊y⌋ : ℤ) : ℚ) + 1 := Int.lt_floor_add_one y
      have hnR : ⌊y⌋ ≤ ⌊decQuantize ctx y⌋ := Int.le_floor.mpr hnle
      rcases lt_or_le ⌊decQuantize ctx y⌋ (⌊y⌋ + 1) with hlt | hge
      · have heq : ⌊decQuantize ctx y⌋ = ⌊y⌋ := by omega
        rw [heq, abs_lt]
        constructor <;> linarith
      · have hRfl : ((⌊decQuantize ctx y⌋ : ℤ) : ℚ) ≤ decQuantize ctx y := Int.floor_le _
        have habs2 : decQuantize ctx y ≤ y + 1 / 2 := by
          rw [abs_le] at herr
          linarith [herr.1]
        have hup : ⌊decQuantize ctx y⌋ ≤ ⌊y⌋ + 1 := by
          have h5 : ((⌊decQuantize ctx y⌋ : ℤ) : ℚ) < ((⌊y⌋ : ℤ) : ℚ) + 2 := by linarith
          have h6 : ((⌊decQuantize ctx y⌋ : ℤ) : ℚ) < (((⌊y⌋ + 2 : ℤ)) : ℚ) := by
            push_cast
            linarith
          have h7 : ⌊decQuantize ctx y⌋ < ⌊y⌋ + 2 := by exact_mod_cast h6
          omega
        have heq : ⌊decQuantize ctx y⌋ = ⌊y⌋ + 1 := by omega
        rw [heq]
        have hyge : ((⌊y⌋ : ℤ) : ℚ) + 1 - 1 / 2 ≤ y := by
          have h8 : (((⌊y⌋ + 1 : ℤ)) : ℚ) ≤ ((⌊decQuantize ctx y⌋ : ℤ) : ℚ) := by
            exact_mod_cast hge
          push_cast at h8
          linarith
        rw [abs_lt]
        push_cast
        constructor <;> linarith

/-- The division `Decimal(ret) / Decimal(2 ** precision)` inside unpack is
exact under the default 26 digit context for the half width values the
elements of at most 4 bytes can produce. -/
theorem decQuantize_div_pow2_exact {sh : ℤ} {P : Nat} (hsh : 0 < sh)
    (hub : sh ≤ 2 ^ 16) (hP : P ≤ 16) :
    decQuantize 26 ((sh : ℚ) / 2 ^ P) = (sh : ℚ) / 2 ^ P := by
  have hqpos : 0 < (sh : ℚ) / 2 ^ P :=
    div_pos (by exact_mod_cast hsh) (by positivity)
  have habs : |(sh : ℚ) / 2 ^ P| = (sh : ℚ) / 2 ^ P := abs_of_pos hqpos
  have he4 : ratExp10 |(sh : ℚ) / 2 ^ P| ≤ 4 := by
    rw [habs]
    apply ratExp10_le_of_lt hqpos
    have h5 : qpow10 (4 + 1) = 100000 := by
      rw [show ((4 : ℤ) + 1) = ((5 : ℕ) : ℤ) from by norm_num, qpow10_natCast]
      norm_num
    rw [h5]
    have h1p : (1 : ℚ) ≤ 2 ^ P := one_le_pow₀ (by norm_num)
    calc (sh : ℚ) / 2 ^ P ≤ (sh : ℚ) :=
        div_le_self (by exact_mod_cast le_of_lt hsh) h1p
      _ ≤ ((2 : ℤ) ^ 16 : ℚ) := by exact_mod_cast hub
      _ < 100000 := by norm_num
  apply decQuantize_exact (ne_of_gt hqpos)
  set e := ratExp10 |(sh : ℚ) / 2 ^ P| with he
  set t := (-(e - (26 : ℤ) + 1)).toNat with ht
  have hts : ((t : ℕ) : ℤ) = -(e - 26 + 1) := Int.toNat_of_nonneg (by omega)
  have htP : P ≤ t := by omega
  refine ⟨sh * 2 ^ (t - P) * 5 ^ t, ?_⟩
  have harg : -(e - ((26 : ℕ) : ℤ) + 1) = ((t : ℕ) : ℤ) := by
    push_cast
    omega
  rw [harg, qpow10_natCast]
  have h10 : (10 : ℚ) ^ t = 2 ^ t * 5 ^ t := by
    rw [← mul_pow]
    norm_num
  have h2t : (2 : ℚ) ^ t = 2 ^ P * 2 ^ (t - P) := by
    rw [← pow_add]
    congr 1
    omega
  push_cast
  field_simp
  rw [h10, h2t]
  ring

/-- Core of the amended fixed point claim, stated against the format facts
of a two character format string. -/
theorem fp_core (m c : Char) (B P ctx : Nat)
    (hbits : get_bits_length [m, c] = some (4 * B))
    (hparseE : ∃ big sg, parseFormat [m, c] = some (big, B, sg))
    (hB1 : 1 ≤ B) (hB : B ≤ 4) (hP : P ≤ 4 * B) (hctx : 5 ≤ ctx)
    (x : ℚ) (hx : 0 ≤ x) :
    ((2 : ℚ) ^ (4 * B - P) ≤ x →
      isErr (ElementFixedPoint.pack ctx ⟨m, [c], P, none⟩ x) = true) ∧
    (x < (2 : ℚ) ^ (4 * B - P) →
      ∃ bs v, ElementFixedPoint.pack ctx ⟨m, [c], P, none⟩ x = .ok bs ∧
        (∀ c2, ElementFixedPoint.unpackSt c2 ⟨m, [c], P, none⟩ bs = (.ok (v, []), 26)) ∧
        |v - x| < ((2 : ℚ) ^ P)⁻¹) := by
  obtain ⟨big, sg, hparse⟩ := hparseE
  have hfmt : ElementFixedPoint.format ⟨m, [c], P, none⟩ = [m, c] := rfl
  constructor
  · intro hge
    have hg : get_fixed_point ctx x [m, c] P
        = .error "num must fit in the specified number of available bits" := by
      unfold get_fixed_point
      rw [hbits]
      dsimp only
      rw [if_neg (by omega : ¬ 4 * B < P), if_pos hge]
    unfold ElementFixedPoint.pack
    rw [hfmt, hg]
    rfl
  · intro hlt
    have hppos : (0 : ℚ) < 2 ^ P := by positivity
    set y : ℚ := x * 2 ^ P with hy
    have hy0 : 0 ≤ y := mul_nonneg hx (le_of_lt hppos)
    have hylt : y < 2 ^ (4 * B) := by
      calc y < 2 ^ (4 * B - P) * 2 ^ P := mul_lt_mul_of_pos_right hlt hppos
        _ = 2 ^ (4 * B) := by
          rw [← pow_add]
          congr 1
          omega
    have hble : 4 * B ≤ 16 := by omega
    obtain ⟨hsh0, hshM, hshclose⟩ := trunc_decQuantize_close hctx hble hy0 hylt
    set sh := int_trunc (decQuantize ctx y) with hshdef
    have hpow1 : (2 : ℤ) ^ (4 * B) < 2 ^ (8 * B - 1) := by
      apply pow_lt_pow_right₀ (by norm_num)
      omega
    have hpow2 : (2 : ℤ) ^ (8 * B - 1) < 2 ^ (8 * B) := by
      apply pow_lt_pow_right₀ (by norm_num)
      omega
    have hrange : ¬ (sh < struct_lo B sg ∨ struct_hi B sg < sh) := by
      push_neg
      cases sg with
      | false =>
        unfold struct_lo struct_hi
        simp only [Bool.false_eq_true, if_false]
        omega
      | true =>
        unfold struct_lo struct_hi
        simp only [if_true]
        omega
    have hgfp : get_fixed_point ctx x [m, c] P = .ok sh := by
      unfold get_fixed_point
      rw [hbits]
      dsimp only
      rw [if_neg (by omega : ¬ 4 * B < P), if_neg (not_le.mpr hlt), ← hy, ← hshdef]
    have hpack : ElementFixedPoint.pack ctx ⟨m, [c], P, none⟩ x
        = struct_pack_int [m, c] sh := by
      unfold ElementFixedPoint.pack
      rw [hfmt, hgfp]
    have hsp : struct_pack_int [m, c] sh = .ok (struct_bytes big B sh) := by
      unfold struct_pack_int
      rw [hparse]
      dsimp only
      rw [if_neg hrange]
    refine ⟨struct_bytes big B sh, (sh : ℚ) / 2 ^ P, by rw [hpack, hsp], ?_, ?_⟩
    · intro c2
      unfold ElementFixedPoint.unpackSt
      rw [hfmt, struct_unpack_struct_pack hsp]
      dsimp only
      have hcalc : struct_calcsize [m, c] = B := by
        unfold struct_calcsize
        rw [hparse]
      have hdrop : (struct_bytes big B sh).drop (struct_calcsize [m, c]) = [] := by
        rw [hcalc]
        exact List.drop_eq_nil_of_le (le_of_eq (struct_bytes_length big B sh))
      rw [hdrop]
      have hval : decQuantize (pyPrec none) ((sh : ℚ) / 2 ^ P) = (sh : ℚ) / 2 ^ P := by
        rw [show pyPrec none = 26 from rfl]
        rcases eq_or_lt_of_le hsh0 with h0 | hpos
        · rw [← h0]
          norm_num [decQuantize]
        · apply decQuantize_div_pow2_exact hpos ?_ (by omega)
          calc sh ≤ 2 ^ (4 * B) := hshM
            _ ≤ 2 ^ 16 := by
              apply pow_le_pow_right₀ (by norm_num)
              omega
      rw [hval]
      rfl
    · have hne : ((2 : ℚ) ^ P) ≠ 0 := by positivity
      have hsub : (sh : ℚ) / 2 ^ P - x = ((sh : ℚ) - y) / 2 ^ P := by
        rw [hy]
        field_simp
        ring
      rw [hsub, abs_div, abs_of_pos hppos, div_lt_iff₀ hppos, inv_mul_cancel₀ hne]
      exact hshclose

theorem ratExp10_eq_of {q : ℚ} (hq : 0 < q) {k : ℤ} (h1 : qpow10 k ≤ q)
    (h2 : q < qpow10 (k + 1)) : ratExp10 q = k := by
  have hle := ratExp10_le_of_lt hq h2
  have hge : k ≤ ratExp10 q := by
    by_contra hc
    push_neg at hc
    have h4 : qpow10 (ratExp10 q + 1) ≤ qpow10 k := by
      rw [qpow10_eq_zpow, qpow10_eq_zpow]
      exact zpow_le_zpow_right₀ (by norm_num) (by omega)
    have h5 := (ratExp10_spec hq).2
    linarith
  omega

set_option maxHeartbeats 1000000 in
theorem codeInfo_char_mem {c : Char} {B : Nat} {sg : Bool}
    (hc : codeInfo c = some (B, sg)) :
    c ∈ ['b', 'B', 'h', 'H', 'i', 'I', 'l', 'L', 'q', 'Q'] := by
  unfold codeInfo at hc
  split_ifs at hc <;>
    first
      | (rename_i h; subst h; decide)
      | (cases hc)

/-- C1 (amended): for a fixed point element over a standard size integer
format of byte count `B ≤ 4` with precision `P ≤ 4 * B`, no `decimal_prec`
override, and an ambient decimal context of at least 5 significant digits,
a nonnegative input `x` raises a domain error exactly when
`x ≥ 2 ^ (4 * B - P)` — the code computes the available bits as four times
the byte count, half the true bit width `8 * B`, and range checks the
signed value rather than its absolute value — and any nonnegative
`x < 2 ^ (4 * B - P)` packs successfully and unpacks (under any incoming
context state) to a value within `2 ^ (-P)` of `x`. -/
theorem fixedpoint_range_halfwidth_roundtrip (m c : Char) (B P ctx : Nat) (sg : Bool)
    (hm : m = '=' ∨ m = '<' ∨ m = '>') (hc : codeInfo c = some (B, sg))
    (hB : B ≤ 4) (hP : P ≤ 4 * B) (hctx : 5 ≤ ctx) (x : ℚ) (hx : 0 ≤ x) :
    ((2 : ℚ) ^ (4 * B - P) ≤ x →
      isErr (ElementFixedPoint.pack ctx ⟨m, [c], P, none⟩ x) = true) ∧
    (x < (2 : ℚ) ^ (4 * B - P) →
      ∃ bs v, ElementFixedPoint.pack ctx ⟨m, [c], P, none⟩ x = .ok bs ∧
        (∀ c2, ElementFixedPoint.unpackSt c2 ⟨m, [c], P, none⟩ bs = (.ok (v, []), 26)) ∧
        |v - x| < ((2 : ℚ) ^ P)⁻¹) := by
  have hB1 : 1 ≤ B := codeInfo_size_pos hc
  have hmem := codeInfo_char_mem hc
  rcases hm with rfl | rfl | rfl <;> fin_cases hmem <;>
    simp only [codeInfo, Option.some.injEq, Prod.mk.injEq, reduceIte] at hc <;>
    obtain ⟨rfl, rfl⟩ := hc <;>
    exact fp_core _ _ _ _ _ (by rfl) (by exact ⟨_, _, rfl⟩) hB1 hB hP hctx x hx

/-- C1 counterexample: the format code `I` has bit width `W = 32`, and with
precision 0 the value 65536 satisfies `|x| < 2 ^ 32`, so the claim requires
pack to succeed; the code raises because it computes the available bits as
`4 * 4 = 16` (half the width) and `65536 ≥ 2 ^ 16`. -/
theorem fixedpoint_range_claim_counterexample :
    (65536 : ℚ) < 2 ^ 32 ∧
    isErr (ElementFixedPoint.pack 28 ⟨'=', ['I'], 0, none⟩ 65536) = true := by
  refine ⟨by norm_num, ?_⟩
  have hg : get_fixed_point 28 65536 ['=', 'I'] 0
      = .error "num must fit in the specified number of available bits" := by
    unfold get_fixed_point
    rw [show get_bits_length ['=', 'I'] = some 16 from rfl]
    dsimp only
    rw [if_neg (by norm_num), if_pos (by norm_num)]
  unfold ElementFixedPoint.pack
  rw [show ElementFixedPoint.format ⟨'=', ['I'], 0, none⟩ = ['=', 'I'] from rfl, hg]
  rfl

/-- C1 witness: the two byte unsigned format `H` with precision 4 under the
default 28 digit ambient context, at the in range input 3/2. -/
theorem fixedpoint_range_halfwidth_roundtrip_witness :
    (((2 : ℚ) ^ (4 * 2 - 4) ≤ (3 / 2 : ℚ) →
      isErr (ElementFixedPoint.pack 28 ⟨'=', ['H'], 4, none⟩ (3 / 2)) = true)) ∧
    ((3 / 2 : ℚ) < 2 ^ (4 * 2 - 4) →
      ∃ bs v, ElementFixedPoint.pack 28 ⟨'=', ['H'], 4, none⟩ (3 / 2) = .ok bs ∧
        (∀ c2, ElementFixedPoint.unpackSt c2 ⟨'=', ['H'], 4, none⟩ bs = (.ok (v, []), 26)) ∧
        |v - (3 / 2 : ℚ)| < ((2 : ℚ) ^ 4)⁻¹) :=
  fixedpoint_range_halfwidth_roundtrip '=' 'H' 2 4 28 false (Or.inl rfl) rfl
    (by norm_num) (by norm_num) (by norm_num) (3 / 2) (by norm_num)

/-- C10: when the element is constructed in network byte order mode its
format string starts with `!`, which `strip_mode` does not strip (the
source strips only `@ = < > +`), and `!` matches no integer code group, so
`get_bits_length` raises and with it every call to pack, whatever the value
and the ambient context. -/
theorem fixedpoint_network_mode_pack_fails (e : ElementFixedPoint) (x : ℚ) (ctx : Nat)
    (hmode : e.mode = '!') :
    isErr (ElementFixedPoint.pack ctx e x) = true := by
  have hfmt : e.format = '!' :: e.pack_format := by
    unfold ElementFixedPoint.format
    rw [hmode]
  have h1 : strip_mode ('!' :: e.pack_format) = '!' :: e.pack_format := by
    unfold strip_mode
    dsimp only
    rw [if_neg (by decide)]
  have hbl : get_bits_length ('!' :: e.pack_format) = none := by
    unfold get_bits_length
    rw [h1]
    dsimp only
    rw [if_neg (by decide), if_neg (by decide), if_neg (by decide), if_neg (by decide)]
  have hg : get_fixed_point ctx x ('!' :: e.pack_format) e.precision
      = .error "pack format was not a valid fixed point specifier" := by
    unfold get_fixed_point
    rw [hbl]
  unfold ElementFixedPoint.pack
  rw [hfmt, hg]
  rfl

/-- C10 witness: the network mode element over the code `I` rejects the
value 1 under a 28 digit context. -/
theorem fixedpoint_network_mode_pack_fails_witness :
    isErr (ElementFixedPoint.pack 28 ⟨'!', ['I'], 0, none⟩ 1) = true :=
  fixedpoint_network_mode_pack_fails ⟨'!', ['I'], 0, none⟩ 1 28 rfl

/-- C8: `make` emits the raw primitive bytes of the supplied value through
the primitive layout, with no `2 ^ precision` scaling and no decimal
conversion: whenever `make` accepts a value its bytes decode back to that
very value, and `make` disagrees with `pack` on the same input (at value 1
with precision 8 over `=I`, `make` encodes 1 while `pack` encodes 256). -/
theorem fixedpoint_make_raw_bytes (e : ElementFixedPoint) (v : Int) (bs : List Nat)
    (h : ElementFixedPoint.make e v = .ok bs) :
    struct_unpack_int e.format bs = .ok v ∧
    ElementFixedPoint.make ⟨'=', ['I'], 8, none⟩ 1
      ≠ ElementFixedPoint.pack 28 ⟨'=', ['I'], 8, none⟩ 1 := by
  refine ⟨struct_unpack_struct_pack h, ?_⟩
  have he : ratExp10 |((256 : ℤ) : ℚ)| = 2 := by
    rw [show |((256 : ℤ) : ℚ)| = ((256 : ℤ) : ℚ) from abs_of_pos (by norm_num)]
    apply ratExp10_eq_of (by norm_num)
    · rw [show (2 : ℤ) = ((2 : ℕ) : ℤ) from rfl, qpow10_natCast]
      norm_num
    · rw [show ((2 : ℤ) + 1) = ((3 : ℕ) : ℤ) from by norm_num, qpow10_natCast]
      norm_num
  have hq : decQuantize 28 ((256 : ℤ) : ℚ) = ((256 : ℤ) : ℚ) := by
    apply decQuantize_exact (by norm_num)
    refine ⟨256 * 10 ^ 25, ?_⟩
    rw [he]
    rw [show (-(2 - ((28 : ℕ) : ℤ) + 1)) = ((25 : ℕ) : ℤ) from by norm_num, qpow10_natCast]
    push_cast
    ring
  have hgfp : get_fixed_point 28 1 ['=', 'I'] 8 = .ok 256 := by
    unfold get_fixed_point
    rw [show get_bits_length ['=', 'I'] = some 16 from rfl]
    dsimp only
    rw [if_neg (by norm_num), if_neg (by norm_num)]
    rw [show (1 : ℚ) * 2 ^ 8 = ((256 : ℤ) : ℚ) from by norm_num, hq]
    rw [show int_trunc ((256 : ℤ) : ℚ) = 256 from by
      unfold int_trunc
      rw [if_pos (by norm_num), Int.floor_intCast]]
  have hpack : ElementFixedPoint.pack 28 ⟨'=', ['I'], 8, none⟩ 1
      = struct_pack_int ['=', 'I'] 256 := by
    unfold ElementFixedPoint.pack
    rw [show ElementFixedPoint.format ⟨'=', ['I'], 8, none⟩ = ['=', 'I'] from rfl, hgfp]
  rw [hpack]
  show struct_pack_int ['=', 'I'] 1 ≠ struct_pack_int ['=', 'I'] 256
  rw [show struct_pack_int ['=', 'I'] 1 = .ok [1, 0, 0, 0] from rfl,
    show struct_pack_int ['=', 'I'] 256 = .ok [0, 1, 0, 0] from rfl]
  intro hcontra
  exact absurd (Except.ok.inj hcontra) (by decide)

/-- C8 witness: `make` of value 5 over `=H` yields `[5, 0]`, which decodes
back to 5. -/
theorem fixedpoint_make_raw_bytes_witness :
    struct_unpack_int (ElementFixedPoint.format ⟨'=', ['H'], 4, none⟩) [5, 0] = .ok 5 ∧
    ElementFixedPoint.make ⟨'=', ['I'], 8, none⟩ 1
      ≠ ElementFixedPoint.pack 28 ⟨'=', ['I'], 8, none⟩ 1 :=
  fixedpoint_make_raw_bytes ⟨'=', ['H'], 4, none⟩ 5 [5, 0] (by rfl)

/-- C9 (amended): `pack` leaves the process wide decimal context unchanged,
and fixed point `unpack` mutates it: after a successful unpack the context
precision equals `decimal_prec` when truthy and 26 otherwise, whatever it
was before the call; only when the primitive decode fails first does the
context survive untouched. -/
theorem fixedpoint_context_state (e : ElementFixedPoint) (x : ℚ) (buf : List Nat)
    (c0 : Nat) :
    (ElementFixedPoint.packSt c0 e x).2 = c0 ∧
    (ElementFixedPoint.unpackSt c0 e buf).2
      = (if isErr (struct_unpack_int e.format buf) then c0
         else pyPrec e.decimal_prec) := by
  refine ⟨rfl, ?_⟩
  unfold ElementFixedPoint.unpackSt
  cases h : struct_unpack_int e.format buf with
  | error s => simp [isErr]
  | ok r => simp [isErr]

/-- C9 counterexample: the claim says no call leaves a persistent side
effect and in particular that fixed point unpack leaves the decimal context
unchanged; unpacking a two byte fixed point field from an ambient context
of 28 digits leaves the context at 26. -/
theorem fixedpoint_unpack_context_counterexample :
    (ElementFixedPoint.unpackSt 28 ⟨'=', ['H'], 4, none⟩ [0, 1]).2 = 26 ∧
    (26 : Nat) ≠ 28 := by
  exact ⟨rfl, by decide⟩
